import Mathlib

/-
Verification of the multi-word anagram search of `cw.py` (crossword-tools).

The embedding models Python's `collections.Counter` over letters as
`Multiset Char` (Counter's `<=` is multiset inclusion, its `-` is truncated
multiset difference), a word as a `List Char`, and the system dictionary as a
list of raw lines handed to `load_words`.  The mutating backtracker
`_backtrack` (which appends to / pops from `chosen` and appends to `results`)
is modelled by the state-passing pair `runSlot`/`backtrackS` that threads the
`chosen` and `results` lists exactly as the Python code mutates them; the
recursion-friendly `backtrack` computes the same result list (theorem
`backtrackS_eq_backtrack`), with the chosen list provably restored after every
candidate trial.  `ValueError` is modelled as the `Except` error case carrying
the data of the message f-string.
-/

abbrev Word := List Char

def spaceChar : Char := Char.ofNat 32

/-- Python `str.strip()`: drop leading and trailing whitespace. -/
def pyStrip (w : Word) : Word :=
  ((w.dropWhile Char.isWhitespace).reverse.dropWhile Char.isWhitespace).reverse

/-- Python `str.isalpha()`: nonempty and all characters alphabetic. -/
def isalphaWord (w : Word) : Bool := !w.isEmpty && w.all Char.isAlpha

/-- Python `collections.Counter(word)`: the multiset of the word's letters. -/
def counter (w : Word) : Multiset Char := (w : Multiset Char)

/-- The loop of `load_words`: strip and lowercase each line, keep it when it is
alphabetic and not seen before (first occurrence wins). -/
def loadWordsFrom (seen : List Word) : List Word → List Word
  | [] => []
  | line :: rest =>
    let w := (pyStrip line).map Char.toLower
    if isalphaWord w ∧ w ∉ seen then w :: loadWordsFrom (w :: seen) rest
    else loadWordsFrom seen rest

/-- `load_words` of `cw.py`, parameterised by the dictionary file's lines. -/
def load_words (lines : List Word) : List Word := loadWordsFrom [] lines

/-- The letter normalisation of `multianagram`:
`letters.replace(" ", "").lower()`. -/
def normalizeLetters (letters : List Char) : List Char :=
  (letters.filter (fun c => c != spaceChar)).map Char.toLower

/-- The `ValueError` raised by `multianagram`, carrying the data of its
message: the lengths list, their sum, and the letter count. -/
inductive CWError where
  | valueError (lengths : List Nat) (total : Nat) (count : Nat)
deriving DecidableEq

/-- `sorted(lengths)` of `multianagram`. -/
def sortedLengths (lengths : List Nat) : List Nat := lengths.insertionSort (· ≤ ·)

/-- The candidate-table construction of `multianagram`: for a needed length the
dictionary words of that length whose letter multiset fits in the full pool,
in dictionary order, each paired with its own letter multiset. -/
def wordsByLength (dict : List Word) (pool : Multiset Char) (lengths : List Nat) :
    Nat → List (Multiset Char × Word) := fun L =>
  if L ∈ lengths then
    (dict.filter (fun w => w.length == L && decide (counter w ≤ pool))).map
      (fun w => (counter w, w))
  else []

/-- The candidate loop of `_backtrack` (`for idx in range(min_idx, ...)`),
threading the mutable `chosen` and `results` lists: a fitting candidate is
appended to `chosen`, the continuation `k` (the recursive call) is run, and the
appended word is popped (`dropLast`) before the next index is tried. -/
def runSlot (cands : List (Multiset Char × Word)) (rem : Multiset Char) (nextSame : Bool)
    (k : Multiset Char → List Word → Nat → List (List Word) → List Word × List (List Word)) :
    List Nat → List Word → List (List Word) → List Word × List (List Word)
  | [], chosen, results => (chosen, results)
  | idx :: idxs, chosen, results =>
    match cands.get? idx with
    | some (cc, cand) =>
      if cc ≤ rem then
        let st := k (rem - cc) (chosen ++ [cand]) (if nextSame then idx + 1 else 0) results
        runSlot cands rem nextSame k idxs st.1.dropLast st.2
      else runSlot cands rem nextSame k idxs chosen results
    | none => runSlot cands rem nextSame k idxs chosen results

/-- `_backtrack` of `cw.py`, state-passing form: returns the final values of
the mutable `chosen` and `results` lists. -/
def backtrackS (wbl : Nat → List (Multiset Char × Word)) :
    List Nat → Multiset Char → List Word → Nat → List (List Word) → List Word × List (List Word)
  | [], _rem, chosen, _minIdx, results => (chosen, results ++ [chosen])
  | L :: rest, rem, chosen, minIdx, results =>
    let cands := wbl L
    runSlot cands rem (rest.head? == some L) (fun r c m rs => backtrackS wbl rest r c m rs)
      (List.range' minIdx (cands.length - minIdx)) chosen results

/-- The result list produced by `_backtrack`, as a pure recursion (proved equal
to the `results` component of `backtrackS` below). -/
def backtrack (wbl : Nat → List (Multiset Char × Word)) :
    List Nat → Multiset Char → List Word → Nat → List (List Word)
  | [], _rem, chosen, _minIdx => [chosen]
  | L :: rest, rem, chosen, minIdx =>
    let cands := wbl L
    (List.range' minIdx (cands.length - minIdx)).flatMap (fun idx =>
      match cands.get? idx with
      | some (cc, cand) =>
        if cc ≤ rem then
          backtrack wbl rest (rem - cc) (chosen ++ [cand])
            (if rest.head? == some L then idx + 1 else 0)
        else []
      | none => [])

/-- `multianagram` of `cw.py`, parameterised by the dictionary file's lines. -/
def multianagram (lines : List Word) (letters : List Char) (lengths : List Nat) :
    Except CWError (List (List Word)) :=
  let letters' := normalizeLetters letters
  let total := lengths.sum
  if total ≠ letters'.length then
    Except.error (CWError.valueError lengths total letters'.length)
  else
    let pool : Multiset Char := ↑letters'
    let words_by_length := wordsByLength (load_words lines) pool lengths
    Except.ok (backtrackS words_by_length (sortedLengths lengths) pool [] 0 []).2

instance : DecidableEq (Except CWError (List (List Word)))
  | Except.error e₁, Except.error e₂ => decidable_of_iff (e₁ = e₂) (by simp)
  | Except.error _, Except.ok _ => isFalse (by simp)
  | Except.ok _, Except.error _ => isFalse (by simp)
  | Except.ok r₁, Except.ok r₂ => decidable_of_iff (r₁ = r₂) (by simp)

/-- The recursion frames of `_backtrack` as invoked by `multianagram`:
`init` is the root call `_backtrack(0, pool, [], 0, ...)`, and `step` mirrors
exactly the recursive call made for an in-range candidate index whose stored
counter fits in the remaining pool. -/
inductive ReachedFrame (wbl : Nat → List (Multiset Char × Word)) (ls₀ : List Nat)
    (pool : Multiset Char) : List Nat → Multiset Char → List Word → Nat → Prop where
  | init : ReachedFrame wbl ls₀ pool ls₀ pool [] 0
  | step {L : Nat} {rest : List Nat} {rem : Multiset Char} {chosen : List Word}
      {minIdx idx : Nat} {cc : Multiset Char} {cand : Word} :
      ReachedFrame wbl ls₀ pool (L :: rest) rem chosen minIdx →
      idx ∈ List.range' minIdx ((wbl L).length - minIdx) →
      (wbl L).get? idx = some (cc, cand) →
      cc ≤ rem →
      ReachedFrame wbl ls₀ pool rest (rem - cc) (chosen ++ [cand])
        (if rest.head? == some L then idx + 1 else 0)

/-- The words of `ws` are candidates drawn from `cands` at strictly increasing
indices, the first of which is at least `m` (the dedup-cursor discipline). -/
def IncrFrom (cands : List Word) : Nat → List Word → Prop
  | _, [] => True
  | m, w :: ws => ∃ i, m ≤ i ∧ cands.get? i = some w ∧ IncrFrom cands (i + 1) ws

/-- The dedup cursor a search starting at `(ls, minIdx)` imposes on the words
of length `L` it will pick: `minIdx` while `L` heads the slot list, else `0`. -/
def slotCursor (ls : List Nat) (minIdx : Nat) (L : Nat) : Nat :=
  if ls.head? = some L then minIdx else 0

/-- A Solution viewed as an unordered collection: the multiset of its words. -/
def wordMultiset (r : List Word) : Multiset Word := (r : Multiset Word)

theorem loadWordsFrom_mem {w : Word} :
    ∀ {seen : List Word} {ls : List Word}, w ∈ loadWordsFrom seen ls →
      isalphaWord w = true ∧ w ∉ seen := by
  intro seen ls
  induction ls generalizing seen with
  | nil => intro h; cases h
  | cons line rest ih =>
    intro h
    simp only [loadWordsFrom] at h
    split at h
    · rename_i hcond
      rcases List.mem_cons.mp h with rfl | h'
      · exact ⟨hcond.1, hcond.2⟩
      · have := ih h'
        exact ⟨this.1, fun hmem => this.2 (List.mem_cons_of_mem _ hmem)⟩
    · exact ih h

theorem loadWordsFrom_nodup : ∀ (ls : List Word) (seen : List Word),
    (loadWordsFrom seen ls).Nodup := by
  intro ls
  induction ls with
  | nil => intro seen; simp [loadWordsFrom]
  | cons line rest ih =>
    intro seen
    simp only [loadWordsFrom]
    split
    · refine List.nodup_cons.mpr ⟨?_, ih _⟩
      intro hmem
      exact (loadWordsFrom_mem hmem).2 (List.mem_cons_self _ _)
    · exact ih _

theorem load_words_nodup (lines : List Word) : (load_words lines).Nodup :=
  loadWordsFrom_nodup lines []

theorem load_words_alpha {lines : List Word} {w : Word} (h : w ∈ load_words lines) :
    isalphaWord w = true :=
  (loadWordsFrom_mem h).1

theorem wordsByLength_mem_iff {dict : List Word} {pool : Multiset Char}
    {lengths : List Nat} {L : Nat} {p : Multiset Char} {w : Word} :
    (p, w) ∈ wordsByLength dict pool lengths L ↔
      (L ∈ lengths ∧ w ∈ dict ∧ w.length = L ∧ counter w ≤ pool ∧ p = counter w) := by
  unfold wordsByLength
  split
  · rename_i hL
    simp only [List.mem_map, List.mem_filter, Bool.and_eq_true, beq_iff_eq,
      decide_eq_true_eq, Prod.mk.injEq]
    constructor
    · rintro ⟨x, ⟨hx, hxl, hxp⟩, hpe, rfl⟩
      exact ⟨hL, hx, hxl, hxp, hpe.symm⟩
    · rintro ⟨_, hx, hxl, hxp, rfl⟩
      exact ⟨w, ⟨hx, hxl, hxp⟩, rfl, rfl⟩
  · rename_i hL
    simp only [List.not_mem_nil, false_iff]
    rintro ⟨h, -⟩
    exact hL h

theorem wordsByLength_good {dict : List Word} {pool : Multiset Char}
    {lengths : List Nat} {L : Nat} {p : Multiset Char} {w : Word}
    (h : (p, w) ∈ wordsByLength dict pool lengths L) :
    p = counter w ∧ w.length = L := by
  have := wordsByLength_mem_iff.mp h
  exact ⟨this.2.2.2.2, this.2.2.1⟩

theorem wordsByLength_snd_nodup {dict : List Word} {pool : Multiset Char}
    {lengths : List Nat} {L : Nat} (hd : dict.Nodup) :
    ((wordsByLength dict pool lengths L).map Prod.snd).Nodup := by
  unfold wordsByLength
  split
  · rw [List.map_map]
    have : (Prod.snd ∘ fun w => (counter w, w)) = fun (w : Word) => w := rfl
    rw [this, List.map_id']
    exact hd.filter _
  · simp

theorem IncrFrom_mono {cands : List Word} {m m' : Nat} {ws : List Word}
    (hmm : m' ≤ m) (h : IncrFrom cands m ws) : IncrFrom cands m' ws := by
  cases ws with
  | nil => trivial
  | cons w t =>
    obtain ⟨i, him, hget, ht⟩ := h
    exact ⟨i, le_trans hmm him, hget, ht⟩

theorem IncrFrom_mem {cands : List Word} {m : Nat} {ws : List Word}
    (h : IncrFrom cands m ws) {x : Word} (hx : x ∈ ws) :
    ∃ j, m ≤ j ∧ cands.get? j = some x := by
  induction ws generalizing m with
  | nil => cases hx
  | cons w t ih =>
    obtain ⟨i, him, hget, ht⟩ := h
    rcases List.mem_cons.mp hx with rfl | hx'
    · exact ⟨i, him, hget⟩
    · obtain ⟨j, hj, hg⟩ := ih ht hx'
      exact ⟨j, by omega, hg⟩

theorem IncrFrom_nodup {cands : List Word} (hn : cands.Nodup) :
    ∀ {m : Nat} {ws : List Word}, IncrFrom cands m ws → ws.Nodup := by
  intro m ws
  induction ws generalizing m with
  | nil => intro _; exact List.nodup_nil
  | cons w t ih =>
    rintro ⟨i, _him, hget, ht⟩
    refine List.nodup_cons.mpr ⟨?_, ih ht⟩
    intro hmem
    obtain ⟨j, hj, hg⟩ := IncrFrom_mem ht hmem
    have hi : i < cands.length := (List.get?_eq_some.mp hget).1
    have : i = j := List.get?_inj hi hn (hget.trans hg.symm)
    omega

theorem IncrFrom_inj {cands : List Word} (hn : cands.Nodup) :
    ∀ {ws₁ : List Word} {m : Nat} {ws₂ : List Word},
      IncrFrom cands m ws₁ → IncrFrom cands m ws₂ →
      (↑ws₁ : Multiset Word) = ↑ws₂ → ws₁ = ws₂ := by
  intro ws₁
  induction ws₁ with
  | nil =>
    intro m ws₂ _ _ heq
    have : (↑ws₂ : Multiset Word) = 0 := by
      rw [← heq]; rfl
    exact ((Multiset.coe_eq_zero ws₂).mp this).symm
  | cons w₁ t₁ ih =>
    rintro m ws₂ ⟨i₁, hm₁, hget₁, ht₁⟩ h₂ heq
    cases ws₂ with
    | nil =>
      exfalso
      have : (↑(w₁ :: t₁) : Multiset Word) = 0 := by rw [heq]; rfl
      simp at this
    | cons w₂ t₂ =>
      obtain ⟨i₂, hm₂, hget₂, ht₂⟩ := h₂
      have hperm : List.Perm (w₁ :: t₁) (w₂ :: t₂) := Multiset.coe_eq_coe.mp heq
      have hi₁ : i₁ < cands.length := (List.get?_eq_some.mp hget₁).1
      have hi₂ : i₂ < cands.length := (List.get?_eq_some.mp hget₂).1
      have hkey : w₁ = w₂ := by
        by_contra hne
        have h₁t : w₁ ∈ t₂ := by
          rcases List.mem_cons.mp (hperm.mem_iff.mp (List.mem_cons_self w₁ t₁)) with h | h
          · exact absurd h hne
          · exact h
        have h₂t : w₂ ∈ t₁ := by
          rcases List.mem_cons.mp (hperm.mem_iff.mpr (List.mem_cons_self w₂ t₂)) with h | h
          · exact absurd h.symm hne
          · exact h
        obtain ⟨j₁, hj₁, hg₁⟩ := IncrFrom_mem ht₂ h₁t
        obtain ⟨j₂, hj₂, hg₂⟩ := IncrFrom_mem ht₁ h₂t
        have e₁ : i₁ = j₁ := List.get?_inj hi₁ hn (hget₁.trans hg₁.symm)
        have e₂ : i₂ = j₂ := List.get?_inj hi₂ hn (hget₂.trans hg₂.symm)
        omega
      subst hkey
      have hii : i₁ = i₂ := List.get?_inj hi₁ hn (hget₁.trans hget₂.symm)
      have htp : (↑t₁ : Multiset Word) = ↑t₂ :=
        Multiset.coe_eq_coe.mpr (hperm.cons_inv)
      have : t₁ = t₂ := ih ht₁ (hii ▸ ht₂) htp
      rw [this]

theorem eq_of_length_profile_and_filters :
    ∀ {ws₁ ws₂ : List Word}, ws₁.map List.length = ws₂.map List.length →
      (∀ L, ws₁.filter (fun w => w.length == L) = ws₂.filter (fun w => w.length == L)) →
      ws₁ = ws₂ := by
  intro ws₁
  induction ws₁ with
  | nil =>
    intro ws₂ hlen _
    cases ws₂ with
    | nil => rfl
    | cons w₂ t₂ => simp at hlen
  | cons w₁ t₁ ih =>
    intro ws₂ hlen hfil
    cases ws₂ with
    | nil => simp at hlen
    | cons w₂ t₂ =>
      simp only [List.map_cons, List.cons.injEq] at hlen
      obtain ⟨hl, hlt⟩ := hlen
      have hfL := hfil w₁.length
      rw [List.filter_cons, List.filter_cons, if_pos (by simp), if_pos (by simp [hl])] at hfL
      rw [List.cons.injEq] at hfL
      obtain ⟨hw, hfT⟩ := hfL
      subst hw
      have : t₁ = t₂ := by
        apply ih hlt
        intro L
        by_cases hL : w₁.length = L
        · subst hL; exact hfT
        · have := hfil L
          rw [List.filter_cons, List.filter_cons,
            if_neg (by simp [hL]), if_neg (by simp [hL])] at this
          exact this
      rw [this]

theorem runSlot_spec {cands : List (Multiset Char × Word)} {rem : Multiset Char} {ns : Bool}
    {k : Multiset Char → List Word → Nat → List (List Word) → List Word × List (List Word)}
    {g : Multiset Char → List Word → Nat → List (List Word)}
    (hk : ∀ r c m rs, k r c m rs = (c, rs ++ g r c m)) :
    ∀ (idxs : List Nat) (chosen : List Word) (results : List (List Word)),
      runSlot cands rem ns k idxs chosen results =
        (chosen, results ++ idxs.flatMap (fun idx =>
          match cands.get? idx with
          | some (cc, cand) =>
            if cc ≤ rem then g (rem - cc) (chosen ++ [cand]) (if ns then idx + 1 else 0)
            else []
          | none => [])) := by
  intro idxs
  induction idxs with
  | nil => intro chosen results; simp [runSlot]
  | cons idx idxs ih =>
    intro chosen results
    simp only [runSlot, List.flatMap_cons]
    cases hg : cands.get? idx with
    | none =>
      simp only [hg]
      rw [ih chosen results]
      simp
    | some p =>
      obtain ⟨cc, cand⟩ := p
      simp only [hg]
      by_cases hle : cc ≤ rem
      · simp only [if_pos hle, hk, List.dropLast_concat]
        rw [ih chosen (results ++ g (rem - cc) (chosen ++ [cand]) (if ns then idx + 1 else 0))]
        simp [List.append_assoc]
      · simp only [if_neg hle]
        rw [ih chosen results]
        simp

theorem backtrackS_eq_backtrack (wbl : Nat → List (Multiset Char × Word)) :
    ∀ (ls : List Nat) (rem : Multiset Char) (chosen : List Word) (minIdx : Nat)
      (results : List (List Word)),
      backtrackS wbl ls rem chosen minIdx results =
        (chosen, results ++ backtrack wbl ls rem chosen minIdx) := by
  intro ls
  induction ls with
  | nil => intro rem chosen minIdx results; simp [backtrackS, backtrack]
  | cons L rest ih =>
    intro rem chosen minIdx results
    simp only [backtrackS, backtrack]
    exact runSlot_spec (fun r c m rs => ih r c m rs) _ chosen results

theorem backtrack_extends {wbl : Nat → List (Multiset Char × Word)} :
    ∀ {ls : List Nat} {rem : Multiset Char} {chosen : List Word} {minIdx : Nat}
      {res : List Word},
      res ∈ backtrack wbl ls rem chosen minIdx → ∃ ws, res = chosen ++ ws := by
  intro ls
  induction ls with
  | nil =>
    intro rem chosen minIdx res h
    simp only [backtrack, List.mem_singleton] at h
    exact ⟨[], by simp [h]⟩
  | cons L rest ih =>
    intro rem chosen minIdx res h
    simp only [backtrack] at h
    rw [List.mem_flatMap] at h
    obtain ⟨idx, _, hres⟩ := h
    split at hres
    · rename_i cc cand _heq
      split at hres
      · obtain ⟨ws', hws'⟩ := ih hres
        exact ⟨cand :: ws', by simp [hws']⟩
      · cases hres
    · cases hres

theorem sum_counter_card : ∀ ws : List Word,
    Multiset.card (ws.map counter).sum = (ws.map List.length).sum := by
  intro ws
  induction ws with
  | nil => simp
  | cons w t ih => simp [counter, ih]

theorem mem_sum_counter : ∀ {ws : List Word} {c : Char}, c ∈ (ws.map counter).sum →
    ∃ w ∈ ws, c ∈ w := by
  intro ws
  induction ws with
  | nil => intro c h; simp at h
  | cons w t ih =>
    intro c h
    simp only [List.map_cons, List.sum_cons, Multiset.mem_add] at h
    rcases h with h | h
    · exact ⟨w, List.mem_cons_self w t, by simpa [counter] using h⟩
    · obtain ⟨w', hw', hc⟩ := ih h
      exact ⟨w', List.mem_cons_of_mem _ hw', hc⟩

theorem backtrack_mem_spec {wbl : Nat → List (Multiset Char × Word)}
    (hw : ∀ L p w, (p, w) ∈ wbl L → p = counter w ∧ w.length = L) :
    ∀ {ls : List Nat}, List.Sorted (· ≤ ·) ls →
      ∀ {rem : Multiset Char} {chosen : List Word} {minIdx : Nat} {res : List Word},
        res ∈ backtrack wbl ls rem chosen minIdx →
        ∃ ws, res = chosen ++ ws ∧ ws.map List.length = ls ∧
          (ws.map counter).sum ≤ rem ∧
          ∀ L, IncrFrom ((wbl L).map Prod.snd) (slotCursor ls minIdx L)
            (ws.filter (fun w => w.length == L)) := by
  intro ls
  induction ls with
  | nil =>
    intro _ rem chosen minIdx res h
    simp only [backtrack, List.mem_singleton] at h
    subst h
    refine ⟨[], by simp, rfl, by simp, ?_⟩
    intro L
    simp only [List.filter_nil]
    trivial
  | cons L rest ih =>
    intro hsort rem chosen minIdx res h
    simp only [backtrack] at h
    rw [List.mem_flatMap] at h
    obtain ⟨idx, hidx, hres⟩ := h
    have hidxge : minIdx ≤ idx := (List.mem_range'_1.mp hidx).1
    split at hres
    · rename_i cc cand heq
      split at hres
      · rename_i hle
        obtain ⟨hcc, hlen⟩ := hw L cc cand (List.get?_mem heq)
        obtain ⟨ws', hpre, hlens, hsum, hincr⟩ := ih hsort.of_cons hres
        refine ⟨cand :: ws', by simp [hpre], by simp [hlen, hlens], ?_, ?_⟩
        · simp only [List.map_cons, List.sum_cons]
          rw [← hcc]
          exact (le_tsub_iff_left hle).mp hsum
        · intro L'
          by_cases hLL : L' = L
          · subst hLL
            rw [List.filter_cons, if_pos (by simp [hlen])]
            have hcur : slotCursor (L' :: rest) minIdx L' = minIdx := by
              simp [slotCursor]
            rw [hcur]
            refine ⟨idx, hidxge, ?_, ?_⟩
            · rw [List.get?_map, heq]
              rfl
            · by_cases hns : rest.head? = some L'
              · have hthis := hincr L'
                rw [slotCursor, if_pos hns] at hthis
                have hm' : (if rest.head? == some L' then idx + 1 else 0) = idx + 1 := by
                  simp [hns]
                rwa [hm'] at hthis
              · have hLnotin : L' ∉ rest := by
                  intro hmem
                  cases rest with
                  | nil => cases hmem
                  | cons r rest' =>
                    have hr : r ≠ L' := fun hh => hns (by simp [hh])
                    have hLr : L' ≤ r :=
                      List.rel_of_sorted_cons hsort r (List.mem_cons_self r rest')
                    rcases List.mem_cons.mp hmem with hh | hh
                    · exact hr hh.symm
                    · have : r ≤ L' := List.rel_of_sorted_cons hsort.of_cons L' hh
                      exact hr (by omega)
                have hnil : ws'.filter (fun w => w.length == L') = [] := by
                  rw [List.filter_eq_nil_iff]
                  intro w hwmem
                  simp only [beq_iff_eq]
                  intro heqL
                  apply hLnotin
                  rw [← heqL, ← hlens]
                  exact List.mem_map_of_mem List.length hwmem
                rw [hnil]
                trivial
          · rw [List.filter_cons, if_neg (by simp [hlen]; omega)]
            have hcur : slotCursor (L :: rest) minIdx L' = 0 := by
              simp only [slotCursor, List.head?_cons]
              rw [if_neg (by simp; omega)]
            rw [hcur]
            exact IncrFrom_mono (Nat.zero_le _) (hincr L')
      · cases hres
    · cases hres

theorem backtrack_nodup {wbl : Nat → List (Multiset Char × Word)}
    (hnd : ∀ L, ((wbl L).map Prod.snd).Nodup) :
    ∀ (ls : List Nat) (rem : Multiset Char) (chosen : List Word) (minIdx : Nat),
      (backtrack wbl ls rem chosen minIdx).Nodup := by
  intro ls
  induction ls with
  | nil => intro rem chosen minIdx; simp [backtrack]
  | cons L rest ih =>
    intro rem chosen minIdx
    simp only [backtrack]
    rw [List.nodup_flatMap]
    constructor
    · intro idx _
      cases hg : (wbl L).get? idx with
      | none => simp [hg]
      | some p =>
        obtain ⟨cc, cand⟩ := p
        simp only [hg]
        by_cases hle : cc ≤ rem
        · rw [if_pos hle]
          exact ih _ _ _
        · rw [if_neg hle]
          exact List.nodup_nil
    · have hnr := List.nodup_range' minIdx ((wbl L).length - minIdx) 1 Nat.one_pos
      refine List.Pairwise.imp ?_ hnr
      intro a b hab
      intro res hra hrb
      cases hga : (wbl L).get? a with
      | none =>
        simp only [hga] at hra
        cases hra
      | some pa =>
        obtain ⟨cca, canda⟩ := pa
        simp only [hga] at hra
        by_cases hlea : cca ≤ rem
        · rw [if_pos hlea] at hra
          cases hgb : (wbl L).get? b with
          | none =>
            simp only [hgb] at hrb
            cases hrb
          | some pb =>
            obtain ⟨ccb, candb⟩ := pb
            simp only [hgb] at hrb
            by_cases hleb : ccb ≤ rem
            · rw [if_pos hleb] at hrb
              obtain ⟨wsa, hwa⟩ := backtrack_extends hra
              obtain ⟨wsb, hwb⟩ := backtrack_extends hrb
              rw [List.append_assoc] at hwa hwb
              have hca : res.get? chosen.length = some canda := by
                rw [hwa, List.get?_append_right (le_refl _)]
                simp
              have hcb : res.get? chosen.length = some candb := by
                rw [hwb, List.get?_append_right (le_refl _)]
                simp
              have hcand : canda = candb := by
                have := hca.symm.trans hcb
                simpa using this
              have ha' : ((wbl L).map Prod.snd).get? a = some canda := by
                rw [List.get?_map, hga]
                rfl
              have hb' : ((wbl L).map Prod.snd).get? b = some canda := by
                rw [List.get?_map, hgb, hcand]
                rfl
              have halt : a < ((wbl L).map Prod.snd).length := (List.get?_eq_some.mp ha').1
              exact hab (List.get?_inj halt (hnd L) (ha'.trans hb'.symm))
            · rw [if_neg hleb] at hrb
              cases hrb
        · rw [if_neg hlea] at hra
          cases hra

theorem reachedFrame_invariant {wbl : Nat → List (Multiset Char × Word)}
    (hw : ∀ L p w, (p, w) ∈ wbl L → p = counter w ∧ w.length = L)
    {ls₀ : List Nat} {pool : Multiset Char} {ls : List Nat} {rem : Multiset Char}
    {chosen : List Word} {minIdx : Nat}
    (h : ReachedFrame wbl ls₀ pool ls rem chosen minIdx) :
    (chosen.map counter).sum ≤ pool ∧ rem = pool - (chosen.map counter).sum := by
  induction h with
  | init => simp
  | step hfr hidx hget hle ih =>
    obtain ⟨ihle, ihrem⟩ := ih
    obtain ⟨hcc, -⟩ := hw _ _ _ (List.get?_mem hget)
    subst hcc
    rw [ihrem] at hle
    constructor
    · rw [List.map_append, List.sum_append]
      simp only [List.map_cons, List.map_nil, List.sum_cons, List.sum_nil, add_zero]
      exact (le_tsub_iff_left ihle).mp hle
    · rw [List.map_append, List.sum_append]
      simp only [List.map_cons, List.map_nil, List.sum_cons, List.sum_nil, add_zero]
      rw [ihrem, tsub_tsub]

theorem multianagram_ok_results {lines : List Word} {letters : List Char} {lengths : List Nat}
    {results : List (List Word)} (h : multianagram lines letters lengths = Except.ok results) :
    lengths.sum = (normalizeLetters letters).length ∧
      results = backtrack (wordsByLength (load_words lines) (↑(normalizeLetters letters)) lengths)
        (sortedLengths lengths) (↑(normalizeLetters letters)) [] 0 := by
  simp only [multianagram] at h
  split at h
  · cases h
  · rename_i hcond
    rw [backtrackS_eq_backtrack] at h
    simp only [List.nil_append, Except.ok.injEq] at h
    exact ⟨not_ne_iff.mp hcond, h.symm⟩

theorem coverage_of_mem {lines : List Word} {letters : List Char} {lengths : List Nat}
    {results : List (List Word)} {res : List Word}
    (h : multianagram lines letters lengths = Except.ok results) (hres : res ∈ results) :
    (res.map counter).sum = ↑(normalizeLetters letters) ∧
      res.map List.length = sortedLengths lengths ∧
      ∀ L, IncrFrom
        ((wordsByLength (load_words lines) (↑(normalizeLetters letters)) lengths L).map Prod.snd)
        0 (res.filter (fun w => w.length == L)) := by
  obtain ⟨hsum, hr⟩ := multianagram_ok_results h
  rw [hr] at hres
  have hwgood : ∀ L p w,
      (p, w) ∈ wordsByLength (load_words lines) (↑(normalizeLetters letters)) lengths L →
        p = counter w ∧ w.length = L := fun L p w hm => wordsByLength_good hm
  have hsorted : List.Sorted (· ≤ ·) (sortedLengths lengths) :=
    List.sorted_insertionSort _ lengths
  obtain ⟨ws, hpre, hlens, hle, hincr⟩ := backtrack_mem_spec hwgood hsorted hres
  rw [List.nil_append] at hpre
  subst hpre
  refine ⟨?_, hlens, ?_⟩
  · have hcard : Multiset.card ((res.map counter).sum) = (normalizeLetters letters).length := by
      rw [sum_counter_card, hlens]
      have hperm : List.Perm (sortedLengths lengths) lengths := List.perm_insertionSort _ lengths
      rw [hperm.sum_eq, hsum]
    refine Multiset.eq_of_le_of_card_le hle ?_
    simp [hcard, Multiset.coe_card]
  · intro L
    have hI := hincr L
    simpa [slotCursor] using hI

theorem nodup_of_filters {ws : List Word}
    (h : ∀ L, (ws.filter (fun w => w.length == L)).Nodup) : ws.Nodup := by
  induction ws with
  | nil => exact List.nodup_nil
  | cons w t ih =>
    refine List.nodup_cons.mpr ⟨?_, ?_⟩
    · intro hmem
      have hh := h w.length
      rw [List.filter_cons, if_pos (by simp)] at hh
      exact (List.nodup_cons.mp hh).1 (List.mem_filter.mpr ⟨hmem, by simp⟩)
    · apply ih
      intro L
      have hh := h L
      rw [List.filter_cons] at hh
      split at hh
      · exact (List.nodup_cons.mp hh).2
      · exact hh

/-- C1: for every Solution returned by `multianagram`, the multiset sum of the
letters of its words equals exactly the multiset of letters of the input string
after space removal and lowercasing — every input letter used exactly once. -/
theorem multianagram_coverage (lines : List Word) (letters : List Char) (lengths : List Nat)
    (results : List (List Word)) (res : List Word)
    (h : multianagram lines letters lengths = Except.ok results) (hres : res ∈ results) :
    (res.map counter).sum = ↑(normalizeLetters letters) :=
  (coverage_of_mem h hres).1

theorem multianagram_coverage_witness :
    (([['c','a','t'], ['d','o','g']] : List Word).map counter).sum =
      (↑(normalizeLetters ['c','a','t','d','o','g']) : Multiset Char) :=
  multianagram_coverage [['c','a','t'], ['d','o','g']] ['c','a','t','d','o','g'] [3, 3]
    [[['c','a','t'], ['d','o','g']]] [['c','a','t'], ['d','o','g']] (by decide) (by decide)

/-- C2: no two Solutions returned by `multianagram` are equal as unordered
collections (multisets) of words: each combination appears at most once. -/
theorem multianagram_no_duplicate_combinations (lines : List Word) (letters : List Char)
    (lengths : List Nat) (results : List (List Word))
    (h : multianagram lines letters lengths = Except.ok results) :
    (results.map wordMultiset).Nodup := by
  obtain ⟨-, hr⟩ := multianagram_ok_results h
  have hndr : results.Nodup := by
    rw [hr]
    exact backtrack_nodup (fun L => wordsByLength_snd_nodup (load_words_nodup lines)) _ _ _ _
  refine List.Nodup.map_on ?_ hndr
  intro r₁ h₁ r₂ h₂ heq
  obtain ⟨-, hlen₁, hincr₁⟩ := coverage_of_mem h h₁
  obtain ⟨-, hlen₂, hincr₂⟩ := coverage_of_mem h h₂
  apply eq_of_length_profile_and_filters (hlen₁.trans hlen₂.symm)
  intro L
  refine IncrFrom_inj (wordsByLength_snd_nodup (load_words_nodup lines))
    (hincr₁ L) (hincr₂ L) ?_
  have heq' : (↑r₁ : Multiset Word) = ↑r₂ := heq
  have hperm : List.Perm r₁ r₂ := Multiset.coe_eq_coe.mp heq'
  exact Multiset.coe_eq_coe.mpr (hperm.filter _)

theorem multianagram_no_duplicate_combinations_witness :
    (([[['c','a','t'], ['d','o','g']]] : List (List Word)).map wordMultiset).Nodup :=
  multianagram_no_duplicate_combinations [['c','a','t'], ['d','o','g']]
    ['c','a','t','d','o','g'] [3, 3] [[['c','a','t'], ['d','o','g']]] (by decide)

/-- C3: `multianagram` fails with the `ValueError` (carrying the lengths, their
sum and the letter count) exactly when `sum(lengths)` differs from the number of
letters left after space removal; the error does not depend on the dictionary
lines (it is raised before any dictionary or search work), and when the sums
match the call returns a result list. -/
theorem multianagram_validation (lines lines' : List Word) (letters : List Char)
    (lengths : List Nat) :
    ((multianagram lines letters lengths =
        Except.error (CWError.valueError lengths lengths.sum (normalizeLetters letters).length)) ↔
      lengths.sum ≠ (normalizeLetters letters).length) ∧
    ((∃ rs, multianagram lines letters lengths = Except.ok rs) ↔
      lengths.sum = (normalizeLetters letters).length) ∧
    (∀ e, multianagram lines letters lengths = Except.error e →
      multianagram lines' letters lengths = Except.error e) := by
  have hunf : ∀ ls : List Word, multianagram ls letters lengths =
      if lengths.sum ≠ (normalizeLetters letters).length then
        Except.error (CWError.valueError lengths lengths.sum (normalizeLetters letters).length)
      else Except.ok (backtrackS
        (wordsByLength (load_words ls) (↑(normalizeLetters letters)) lengths)
        (sortedLengths lengths) (↑(normalizeLetters letters)) [] 0 []).2 := by
    intro ls
    rfl
  by_cases hv : lengths.sum = (normalizeLetters letters).length
  · refine ⟨?_, ?_, ?_⟩
    · rw [hunf lines, if_neg (not_ne_iff.mpr hv)]
      simp [hv]
    · rw [hunf lines, if_neg (not_ne_iff.mpr hv)]
      simp [hv]
    · intro e he
      rw [hunf lines, if_neg (not_ne_iff.mpr hv)] at he
      simp at he
  · refine ⟨?_, ?_, ?_⟩
    · rw [hunf lines, if_pos hv]
      simp [hv]
    · rw [hunf lines, if_pos hv]
      simp [hv]
    · intro e he
      rw [hunf lines, if_pos hv] at he
      rw [hunf lines', if_pos hv]
      exact he

/-- C4: for a required length `L`, the candidate table built by `multianagram`
contains exactly the dictionary words of length `L` whose letter multiset is
contained in the full input pool, each paired with its own letter multiset. -/
theorem candidate_table_exact (lines : List Word) (letters : List Char) (lengths : List Nat)
    (L : Nat) (p : Multiset Char) (w : Word) (hL : L ∈ lengths) :
    ((p, w) ∈ wordsByLength (load_words lines) (↑(normalizeLetters letters)) lengths L) ↔
      (w ∈ load_words lines ∧ w.length = L ∧ counter w ≤ ↑(normalizeLetters letters) ∧
        p = counter w) := by
  rw [wordsByLength_mem_iff]
  constructor
  · rintro ⟨-, hrest⟩
    exact hrest
  · intro hrest
    exact ⟨hL, hrest⟩

theorem candidate_table_exact_witness :
    (counter ['c','a','t'], ['c','a','t']) ∈
      wordsByLength (load_words [['c','a','t']]) (↑(normalizeLetters ['t','a','c'])) [3] 3 :=
  (candidate_table_exact [['c','a','t']] ['t','a','c'] [3] 3 (counter ['c','a','t'])
    ['c','a','t'] (by decide)).mpr (by decide)

/-- C5: at every recursion frame reached by the backtracking search as started
by `multianagram`, the remaining pool equals the full input pool minus the
multiset sum of the chosen words' letters (never more was subtracted than was
there), and every letter count of the remaining pool is non-negative. -/
theorem backtrack_frame_invariant (lines : List Word) (letters : List Char) (lengths : List Nat)
    (ls : List Nat) (rem : Multiset Char) (chosen : List Word) (minIdx : Nat)
    (h : ReachedFrame (wordsByLength (load_words lines) (↑(normalizeLetters letters)) lengths)
      (sortedLengths lengths) (↑(normalizeLetters letters)) ls rem chosen minIdx) :
    rem = ↑(normalizeLetters letters) - (chosen.map counter).sum ∧
      (chosen.map counter).sum ≤ ↑(normalizeLetters letters) ∧
      ∀ c : Char, 0 ≤ Multiset.count c rem := by
  obtain ⟨h1, h2⟩ := reachedFrame_invariant (fun L p w hm => wordsByLength_good hm) h
  exact ⟨h2, h1, fun c => Nat.zero_le _⟩

theorem backtrack_frame_invariant_witness :
    (↑(normalizeLetters ['c','a','t']) : Multiset Char) =
        ↑(normalizeLetters ['c','a','t']) - (([] : List Word).map counter).sum ∧
      (([] : List Word).map counter).sum ≤ (↑(normalizeLetters ['c','a','t']) : Multiset Char) ∧
      0 ≤ Multiset.count 'a' (↑(normalizeLetters ['c','a','t']) : Multiset Char) := by
  have hmain := backtrack_frame_invariant [] ['c','a','t'] [3] (sortedLengths [3])
    (↑(normalizeLetters ['c','a','t'])) [] 0 ReachedFrame.init
  exact ⟨hmain.1, hmain.2.1, hmain.2.2 'a'⟩

/-- C6: every Solution returned by `multianagram` has as many words as there
are requested lengths, and its list of word lengths is the requested lengths
sorted ascending (so the word in slot i has the i-th smallest length). -/
theorem multianagram_solution_shape (lines : List Word) (letters : List Char)
    (lengths : List Nat) (results : List (List Word)) (res : List Word)
    (h : multianagram lines letters lengths = Except.ok results) (hres : res ∈ results) :
    res.length = lengths.length ∧ res.map List.length = sortedLengths lengths := by
  have hlen := (coverage_of_mem h hres).2.1
  refine ⟨?_, hlen⟩
  have h1 : res.length = (res.map List.length).length := by simp
  rw [h1, hlen]
  exact (List.perm_insertionSort (· ≤ ·) lengths).length_eq

theorem multianagram_solution_shape_witness :
    ([['c','a','t'], ['d','o','g']] : List Word).length = ([3, 3] : List Nat).length ∧
      ([['c','a','t'], ['d','o','g']] : List Word).map List.length = sortedLengths [3, 3] :=
  multianagram_solution_shape [['c','a','t'], ['d','o','g']] ['c','a','t','d','o','g'] [3, 3]
    [[['c','a','t'], ['d','o','g']]] [['c','a','t'], ['d','o','g']] (by decide) (by decide)

/-- C7: trying a candidate has no effect on the next sibling trial: the
state-passing backtracker hands back exactly the chosen list it received (the
pop undoes the append), and every iteration of the candidate loop therefore
observes the same chosen list and the same (never-mutated) remaining pool. -/
theorem backtrack_trial_undo_no_leak (wbl : Nat → List (Multiset Char × Word))
    (ls : List Nat) (rem : Multiset Char) (chosen : List Word) (minIdx : Nat)
    (results : List (List Word)) :
    (backtrackS wbl ls rem chosen minIdx results).1 = chosen ∧
      ∀ (cands : List (Multiset Char × Word)) (ns : Bool) (idxs : List Nat),
        (runSlot cands rem ns (fun r c m rs => backtrackS wbl ls r c m rs)
          idxs chosen results).1 = chosen := by
  constructor
  · rw [backtrackS_eq_backtrack]
  · intro cands ns idxs
    rw [runSlot_spec (fun r c m rs => backtrackS_eq_backtrack wbl ls r c m rs) idxs chosen results]

/-- C8: with an empty lengths list and an input that has no letters after space
removal, `multianagram` returns exactly one Solution: the empty tuple. -/
theorem multianagram_empty_slot_list (lines : List Word) (letters : List Char)
    (h : normalizeLetters letters = []) :
    multianagram lines letters [] = Except.ok [[]] := by
  simp [multianagram, h, sortedLengths, List.insertionSort, backtrackS]

theorem multianagram_empty_slot_list_witness :
    multianagram [['c','a','t']] [spaceChar, spaceChar] [] = Except.ok [[]] :=
  multianagram_empty_slot_list [['c','a','t']] [spaceChar, spaceChar] (by decide)

/-- C9: the words of any Solution returned by `multianagram` are pairwise
distinct: the same word is never used twice, even when the letter pool would
allow it. -/
theorem multianagram_solution_words_distinct (lines : List Word) (letters : List Char)
    (lengths : List Nat) (results : List (List Word)) (res : List Word)
    (h : multianagram lines letters lengths = Except.ok results) (hres : res ∈ results) :
    res.Nodup := by
  obtain ⟨-, -, hincr⟩ := coverage_of_mem h hres
  apply nodup_of_filters
  intro L
  exact IncrFrom_nodup (wordsByLength_snd_nodup (load_words_nodup lines)) (hincr L)

theorem multianagram_solution_words_distinct_witness :
    ([['c','a','t'], ['d','o','g']] : List Word).Nodup :=
  multianagram_solution_words_distinct [['c','a','t'], ['d','o','g']]
    ['c','a','t','d','o','g'] [3, 3] [[['c','a','t'], ['d','o','g']]]
    [['c','a','t'], ['d','o','g']] (by decide) (by decide)

/-- C10: normalisation removes exactly the space characters (a character
survives iff it is the lowercasing of a non-space input character, so other
whitespace survives), and when the normalised letters contain a non-alphabetic
character a successful `multianagram` call returns the empty result list,
because every dictionary word is purely alphabetic. -/
theorem multianagram_nonalpha_empty (lines : List Word) (letters : List Char)
    (lengths : List Nat) (results : List (List Word))
    (h : multianagram lines letters lengths = Except.ok results)
    (hc : ∃ c ∈ normalizeLetters letters, ¬ c.isAlpha) :
    results = [] ∧
      ∀ (input : List Char) (c : Char),
        c ∈ normalizeLetters input ↔ ∃ d ∈ input, d ≠ spaceChar ∧ d.toLower = c := by
  constructor
  · rw [List.eq_nil_iff_forall_not_mem]
    intro res hres
    obtain ⟨hsum, -, hincr⟩ := coverage_of_mem h hres
    obtain ⟨c, hcmem, hcal⟩ := hc
    have hcpool : c ∈ (res.map counter).sum := by
      rw [hsum]
      exact Multiset.mem_coe.mpr hcmem
    obtain ⟨w, hwres, hcw⟩ := mem_sum_counter hcpool
    have hwfil : w ∈ res.filter (fun x => x.length == w.length) :=
      List.mem_filter.mpr ⟨hwres, by simp⟩
    obtain ⟨j, -, hj⟩ := IncrFrom_mem (hincr w.length) hwfil
    have hwmap : w ∈ (wordsByLength (load_words lines) (↑(normalizeLetters letters)) lengths
        w.length).map Prod.snd := List.get?_mem hj
    obtain ⟨⟨p, w'⟩, hpw, hww⟩ := List.mem_map.mp hwmap
    have hww' : w' = w := hww
    subst hww'
    have hwdict : w' ∈ load_words lines := (wordsByLength_mem_iff.mp hpw).2.1
    have halpha := load_words_alpha hwdict
    have hok : c.isAlpha = true := by
      simp only [isalphaWord, Bool.and_eq_true, List.all_eq_true] at halpha
      exact halpha.2 c hcw
    exact hcal hok
  · intro input c
    simp only [normalizeLetters, List.mem_map, List.mem_filter, bne_iff_ne, ne_eq]
    constructor
    · rintro ⟨d, ⟨hd, hds⟩, hdl⟩
      exact ⟨d, hd, hds, hdl⟩
    · rintro ⟨d, hd, hds, hdl⟩
      exact ⟨d, ⟨hd, hds⟩, hdl⟩

theorem multianagram_nonalpha_empty_witness :
    (([] : List (List Word)) = []) ∧ Char.ofNat 9 ∈ normalizeLetters [Char.ofNat 9] := by
  have hmain := multianagram_nonalpha_empty [['c','a','t']] ['c','a','1','t'] [4] [] (by decide)
    ⟨'1', by decide, by decide⟩
  refine ⟨hmain.1, (hmain.2 [Char.ofNat 9] (Char.ofNat 9)).mpr ?_⟩
  exact ⟨Char.ofNat 9, by decide, by decide, by decide⟩
